import Mathlib

/-!
Verification of the sox asynchronous socket I/O library core.

This file gives a shallow embedding, in Lean, of the parts of the sox
repository that the checked claims are about:

* the capacity validation and bit-smearing rounding shared by
  NewRingQueue (poller.go) and NewFixedStack (fixed_stack.go);
* the non-concurrent (SPSC) bounded ring queue (poller.go), its
  Produce / Consume / Close operations, and the tail-word Close of the
  concurrent variants (ringQueueConcurrentClose);
* the length-prefixed message framer (message.go): header encoding and
  decoding, the stream reader and writer loops with an explicit model of
  how the underlying transport chunks bytes, and the close protocol on
  the framer status word;
* the page-aligned block group allocator (buffers.go);
* the parameterised spin waiter (spin_wait.go);
* the io_uring completion-queue wait step (uring_linux.go).

Go machine integers are modelled as Nat with explicit wrap-around
(mod 2^w) where overflow can matter; Go slices become Lean lists;
operations that can fail return an explicit outcome value.  Loops whose
termination depends on the external transport are given fuel; the
blocking branches that would spin forever in a single-threaded run are
modelled as an explicit blocked outcome.
-/

namespace Sox

/-! ### Capacity rounding (poller.go NewRingQueue, fixed_stack.go NewFixedStack)

Both constructors validate the requested capacity and then round it by
the five successive shift-or steps
c |= c>>1; c |= c>>2; c |= c>>4; c |= c>>8; c |= c>>16. -/

def capRound (c : Nat) : Nat :=
  let c1 := c ||| c >>> 1
  let c2 := c1 ||| c1 >>> 2
  let c3 := c2 ||| c2 >>> 4
  let c4 := c3 ||| c3 >>> 8
  c4 ||| c4 >>> 16

/-- NewRingQueue capacity handling: the Capacity option is a Go int;
capacity < 1 or capacity ≥ 1<<30 is rejected, otherwise the smeared
capacity is used as the index mask. -/
def newRingQueueCapacity (c : Int) : Option Nat :=
  if c < 1 ∨ 2 ^ 30 ≤ c then none else some (capRound c.toNat)

/-- NewFixedStack capacity handling: the Capacity option is a Go uint32. -/
def newFixedStackCapacity (c : Nat) : Option Nat :=
  if c < 1 ∨ 2 ^ 30 ≤ c then none else some (capRound c)

/-- Reference value named by the spec: the requested capacity with every
bit below its highest set bit filled in, i.e. the least number of the
form 2^n − 1 that is ≥ c. -/
def nextAllOnes (c : Nat) : Nat := 2 ^ Nat.size c - 1

theorem testBit_or_shiftRight (x k i : Nat) :
    ((x ||| x >>> k).testBit i) = (x.testBit i || x.testBit (i + k)) := by
  simp [Nat.testBit_or, Nat.testBit_shiftRight, Nat.add_comm]

theorem orShift_bit_char {x y : Nat} (m : Nat)
    (h : ∀ i, y.testBit i = true ↔ ∃ s, s < m ∧ x.testBit (i + s) = true) :
    ∀ i, ((y ||| y >>> m).testBit i = true) ↔
      ∃ s, s < 2 * m ∧ x.testBit (i + s) = true := by
  intro i
  rw [testBit_or_shiftRight, Bool.or_eq_true, h i, h (i + m)]
  constructor
  · rintro (⟨s, hs, hb⟩ | ⟨s, hs, hb⟩)
    · exact ⟨s, by omega, hb⟩
    · exact ⟨m + s, by omega, by rwa [← Nat.add_assoc]⟩
  · rintro ⟨s, hs, hb⟩
    by_cases hsm : s < m
    · exact Or.inl ⟨s, hsm, hb⟩
    · exact Or.inr ⟨s - m, by omega, by rw [show i + m + (s - m) = i + s by omega]; exact hb⟩

theorem capRound_bit_char (x : Nat) :
    ∀ i, ((capRound x).testBit i = true) ↔ ∃ s, s < 32 ∧ x.testBit (i + s) = true := by
  have h1 : ∀ i, (x.testBit i = true) ↔ ∃ s, s < 1 ∧ x.testBit (i + s) = true := by
    intro i
    constructor
    · intro h; exact ⟨0, by omega, by simpa using h⟩
    · rintro ⟨s, hs, hb⟩; have : s = 0 := by omega
      subst this; simpa using hb
  have h2 := orShift_bit_char 1 h1
  have h4 := orShift_bit_char 2 h2
  have h8 := orShift_bit_char 4 h4
  have h16 := orShift_bit_char 8 h8
  have h32 := orShift_bit_char 16 h16
  simpa [capRound] using h32

theorem testBit_size_pred {x : Nat} (hx : 0 < x) :
    x.testBit (Nat.size x - 1) = true := by
  have hb : 0 < Nat.size x := Nat.size_pos.mpr hx
  have hlo : 2 ^ (Nat.size x - 1) ≤ x := Nat.lt_size.mp (by omega)
  have hhi : x < 2 ^ Nat.size x := Nat.lt_size_self x
  have hpow : 2 ^ Nat.size x = 2 ^ (Nat.size x - 1) * 2 := by
    rw [← Nat.pow_succ]
    congr 1
    omega
  have hpos : 0 < 2 ^ (Nat.size x - 1) := Nat.pos_pow_of_pos _ (by omega)
  have hdiv : x / 2 ^ (Nat.size x - 1) = 1 := by
    have h1 : 1 ≤ x / 2 ^ (Nat.size x - 1) := (Nat.le_div_iff_mul_le hpos).mpr (by omega)
    have h2 : x / 2 ^ (Nat.size x - 1) < 2 := Nat.div_lt_of_lt_mul (by omega)
    omega
  rw [Nat.testBit_to_div_mod, hdiv]
  decide

/-- The five shift-or steps fill every bit below the highest set bit:
for 0 < x < 2^32 the result is 2^(size x) − 1. -/
theorem capRound_eq (x : Nat) (hx : 0 < x) (hx32 : x < 2 ^ 32) :
    capRound x = nextAllOnes x := by
  have hsz : Nat.size x ≤ 32 := Nat.size_le.mpr hx32
  apply Nat.eq_of_testBit_eq
  intro i
  rw [nextAllOnes, Nat.testBit_two_pow_sub_one]
  by_cases hi : i < Nat.size x
  · have : (capRound x).testBit i = true := by
      rw [capRound_bit_char]
      refine ⟨Nat.size x - 1 - i, by omega, ?_⟩
      rw [show i + (Nat.size x - 1 - i) = Nat.size x - 1 by omega]
      exact testBit_size_pred hx
    rw [this]
    simp [hi]
  · have : (capRound x).testBit i = false := by
      rw [← Bool.not_eq_true, capRound_bit_char]
      rintro ⟨s, _, hb⟩
      have hxi : x < 2 ^ (i + s) := by
        calc x < 2 ^ Nat.size x := Nat.lt_size_self x
        _ ≤ 2 ^ (i + s) := Nat.pow_le_pow_right (by omega) (by omega)
      rw [Nat.testBit_lt_two_pow hxi] at hb
      exact Bool.false_ne_true hb
    rw [this]
    simp [hi]

theorem nextAllOnes_ge (c : Nat) : c ≤ nextAllOnes c := by
  have := Nat.lt_size_self c
  rw [nextAllOnes]
  omega

theorem nextAllOnes_least (c m : Nat) (h : c ≤ 2 ^ m - 1) :
    nextAllOnes c ≤ 2 ^ m - 1 := by
  have hpos : 0 < 2 ^ m := Nat.pos_pow_of_pos _ (by omega)
  have hlt : c < 2 ^ m := by omega
  have hsz : Nat.size c ≤ m := Nat.size_le.mpr hlt
  have : 2 ^ Nat.size c ≤ 2 ^ m := Nat.pow_le_pow_right (by omega) hsz
  rw [nextAllOnes]
  omega

/-- Claim C10: NewRingQueue and NewFixedStack return an error and no
container exactly when the requested capacity c satisfies c < 1 or
c ≥ 2^30; for every c in [1, 2^30) construction succeeds, and the
effective internal capacity is c with all bits below its highest set bit
filled in — the least value of the form 2^n − 1 that is ≥ c. -/
theorem ringQueue_fixedStack_capacity_policy (c : Int) (cn : Nat) :
    (newRingQueueCapacity c = none ↔ (c < 1 ∨ 2 ^ 30 ≤ c)) ∧
    (newFixedStackCapacity cn = none ↔ (cn < 1 ∨ 2 ^ 30 ≤ cn)) ∧
    (1 ≤ c → c < 2 ^ 30 →
      newRingQueueCapacity c = some (nextAllOnes c.toNat) ∧
      c.toNat ≤ nextAllOnes c.toNat ∧
      (∀ m, c.toNat ≤ 2 ^ m - 1 → nextAllOnes c.toNat ≤ 2 ^ m - 1)) ∧
    (1 ≤ cn → cn < 2 ^ 30 →
      newFixedStackCapacity cn = some (nextAllOnes cn) ∧
      cn ≤ nextAllOnes cn ∧
      (∀ m, cn ≤ 2 ^ m - 1 → nextAllOnes cn ≤ 2 ^ m - 1)) := by
  refine ⟨?_, ?_, ?_, ?_⟩
  · constructor
    · intro h
      by_contra hc
      rw [newRingQueueCapacity, if_neg hc] at h
      exact Option.some_ne_none _ h
    · intro h
      rw [newRingQueueCapacity, if_pos h]
  · constructor
    · intro h
      by_contra hc
      rw [newFixedStackCapacity, if_neg hc] at h
      exact Option.some_ne_none _ h
    · intro h
      rw [newFixedStackCapacity, if_pos h]
  · intro h1 h2
    have hno : ¬ (c < 1 ∨ 2 ^ 30 ≤ c) := by omega
    have hpos : 0 < c.toNat := by omega
    have h32 : c.toNat < 2 ^ 32 := by
      have : c < 2 ^ 32 := by
        calc c < 2 ^ 30 := h2
        _ ≤ 2 ^ 32 := by norm_num
      omega
    refine ⟨?_, nextAllOnes_ge _, fun m hm => nextAllOnes_least _ m hm⟩
    rw [newRingQueueCapacity, if_neg hno, capRound_eq _ hpos h32]
  · intro h1 h2
    have hno : ¬ (cn < 1 ∨ 2 ^ 30 ≤ cn) := by omega
    have h32 : cn < 2 ^ 32 := by
      calc cn < 2 ^ 30 := h2
      _ ≤ 2 ^ 32 := by norm_num
    refine ⟨?_, nextAllOnes_ge _, fun m hm => nextAllOnes_least _ m hm⟩
    rw [newFixedStackCapacity, if_neg hno, capRound_eq _ (by omega) h32]

/-- Witness for C10 at c = 5: both constructors round 5 up to 7. -/
theorem ringQueue_fixedStack_capacity_policy_witness :
    ((1 : Int) ≤ 5 ∧ (5 : Int) < 2 ^ 30) ∧
    newRingQueueCapacity 5 = some 7 ∧ newFixedStackCapacity 5 = some 7 := by
  have h := ringQueue_fixedStack_capacity_policy 5 5
  have h7 : nextAllOnes 5 = 7 := by
    rw [← capRound_eq 5 (by norm_num) (by norm_num)]
    decide
  refine ⟨by norm_num, ?_, ?_⟩
  · have h5 := (h.2.2.1 (by norm_num) (by norm_num)).1
    rw [h5, show Int.toNat 5 = 5 by rfl, h7]
  · have h5 := (h.2.2.2 (by norm_num) (by norm_num)).1
    rw [h5, h7]

/-! ### Bounded ring queue, non-concurrent variant (poller.go ringQueue)

The SPSC ring queue stores items in a slice of length capacity+1 and
masks indices with the (all-ones) capacity.  Produce and Consume follow
the code: blocking calls that can never make progress in a
single-threaded run (full / empty queue, not closed, Nonblocking false)
are modelled by the explicit blocked outcome. -/

inductive PResult where
  | ok
  | closedPipe
  | unavailable
  | blocked
  deriving DecidableEq

inductive CResult (α : Type) where
  | ok (x : α)
  | eof
  | unavailable
  | blocked
  deriving DecidableEq

structure RingQ (α : Type) where
  nonblocking : Bool
  cap : Nat
  ring : List α
  head : Nat
  tail : Nat
  closed : Bool
  deriving DecidableEq

def rqProduce {α : Type} (rq : RingQ α) (x : α) : PResult × RingQ α :=
  if rq.closed then (.closedPipe, rq)
  else if (rq.tail + 1) &&& rq.cap = rq.head then
    (if rq.nonblocking then (.unavailable, rq) else (.blocked, rq))
  else (.ok, { rq with ring := rq.ring.set rq.tail x, tail := (rq.tail + 1) &&& rq.cap })

def rqConsume {α : Type} [Inhabited α] (rq : RingQ α) : CResult α × RingQ α :=
  if rq.head = rq.tail then
    (if rq.closed then (.eof, rq)
     else if rq.nonblocking then (.unavailable, rq) else (.blocked, rq))
  else (.ok (rq.ring.getD rq.head default), { rq with head := (rq.head + 1) &&& rq.cap })

def rqClose {α : Type} (rq : RingQ α) : RingQ α := { rq with closed := true }

/-- The tail status word of the concurrent ring queue variants
(poller.go, ringQueueConcurrentClose.Close): bit 31 is the writing
sentinel, bit 30 the closed sentinel.  Close returns nil immediately on
an already-closed word, spins while the writing bit is held (none in a
single-threaded run), and otherwise CAS-sets the closed bit. -/
def ringQueueStatusWriting : Nat := 2 ^ 31

def ringQueueStatusClosed : Nat := 2 ^ 30

def rqcClose (tail : Nat) : Option Nat :=
  if tail &&& ringQueueStatusClosed = ringQueueStatusClosed then some tail
  else if tail &&& ringQueueStatusWriting = ringQueueStatusWriting then none
  else some (tail ||| ringQueueStatusClosed)

inductive RQOp (α : Type) where
  | produce (x : α)
  | consume
  | close

/-- Run a sequence of operations, also counting the successful produces
and the successful consumes. -/
def rqRun {α : Type} [Inhabited α] : RingQ α → List (RQOp α) → RingQ α × Nat × Nat
  | rq, [] => (rq, 0, 0)
  | rq, .produce x :: ops =>
      let pr := rqProduce rq x
      let r := rqRun pr.2 ops
      (r.1, (if pr.1 = PResult.ok then r.2.1 + 1 else r.2.1), r.2.2)
  | rq, .consume :: ops =>
      let cr := rqConsume rq
      let r := rqRun cr.2 ops
      (r.1, r.2.1, (match cr.1 with | .ok _ => r.2.2 + 1 | _ => r.2.2))
  | rq, .close :: ops => rqRun (rqClose rq) ops

/-- Run n consecutive consumes, requiring success at each step. -/
def rqConsumeRun {α : Type} [Inhabited α] : RingQ α → Nat → Option (RingQ α)
  | rq, 0 => some rq
  | rq, k + 1 =>
      match rqConsume rq with
      | (CResult.ok _, rq') => rqConsumeRun rq' k
      | _ => none

/-- Fresh queue as built by NewRingQueue for the non-concurrent variant:
slice of length capacity+1, zero head and tail, open. -/
def mkRingQ (α : Type) [Inhabited α] (c : Nat) (nb : Bool) : RingQ α :=
  { nonblocking := nb, cap := capRound c, ring := List.replicate (capRound c + 1) default,
    head := 0, tail := 0, closed := false }

/-- Number of items currently queued (distance from head to tail around
the ring). -/
def rqCount {α : Type} (rq : RingQ α) : Nat :=
  if rq.head ≤ rq.tail then rq.tail - rq.head else rq.tail + (rq.cap + 1) - rq.head

def rqInv {α : Type} (rq : RingQ α) : Prop :=
  rq.ring.length = rq.cap + 1 ∧ rq.head ≤ rq.cap ∧ rq.tail ≤ rq.cap ∧
  rqCount rq ≤ rq.cap ∧ (∃ n, rq.cap = 2 ^ n - 1)

theorem succ_and_mask {n t cap : Nat} (hc : cap = 2 ^ n - 1) (ht : t ≤ cap) :
    (t + 1) &&& cap = if t = cap then 0 else t + 1 := by
  have hpos : 0 < 2 ^ n := Nat.pos_pow_of_pos _ (by omega)
  subst hc
  rw [Nat.and_pow_two_sub_one_eq_mod]
  by_cases h : t = 2 ^ n - 1
  · subst h
    rw [if_pos rfl, Nat.sub_add_cancel (by omega), Nat.mod_self]
  · rw [if_neg h, Nat.mod_eq_of_lt (by omega)]

theorem rqProduce_closed {α : Type} (rq : RingQ α) (x : α) (h : rq.closed = true) :
    rqProduce rq x = (PResult.closedPipe, rq) := by
  simp [rqProduce, h]

theorem rqProduce_spec {α : Type} (rq : RingQ α) (x : α) (hinv : rqInv rq) :
    rqInv (rqProduce rq x).2 ∧
    (rqProduce rq x).2.closed = rq.closed ∧
    (((rqProduce rq x).1 = PResult.ok ∧
        rqCount (rqProduce rq x).2 = rqCount rq + 1) ∨
      ((rqProduce rq x).1 ≠ PResult.ok ∧ (rqProduce rq x).2 = rq)) := by
  obtain ⟨hlen, hh, ht, hcnt, n, hcap⟩ := hinv
  by_cases hc : rq.closed
  · rw [rqProduce_closed rq x hc]
    exact ⟨⟨hlen, hh, ht, hcnt, n, hcap⟩, rfl, Or.inr ⟨by simp, rfl⟩⟩
  · have hmask := succ_and_mask hcap ht
    by_cases hfull : (rq.tail + 1) &&& rq.cap = rq.head
    · have hres : rqProduce rq x =
          (if rq.nonblocking then (PResult.unavailable, rq) else (PResult.blocked, rq)) := by
        rw [rqProduce, if_neg hc, if_pos hfull]
      by_cases hnb : rq.nonblocking
      · rw [hres, if_pos hnb]
        exact ⟨⟨hlen, hh, ht, hcnt, n, hcap⟩, rfl, Or.inr ⟨by simp, rfl⟩⟩
      · rw [hres, if_neg hnb]
        exact ⟨⟨hlen, hh, ht, hcnt, n, hcap⟩, rfl, Or.inr ⟨by simp, rfl⟩⟩
    · have hres : rqProduce rq x = (PResult.ok,
          { rq with ring := rq.ring.set rq.tail x, tail := (rq.tail + 1) &&& rq.cap }) := by
        rw [rqProduce, if_neg hc, if_neg hfull]
      rw [hres, hmask] at *
      refine ⟨⟨by simp [hlen], by simpa using hh, ?_, ?_, n, hcap⟩, rfl, Or.inl ⟨rfl, ?_⟩⟩
      · simp only
        split <;> omega
      · simp only [rqCount] at hcnt ⊢
        split_ifs at hcnt hfull ⊢ <;> omega
      · simp only [rqCount] at hcnt ⊢
        split_ifs at hcnt hfull ⊢ <;> omega

theorem rqConsume_spec {α : Type} [Inhabited α] (rq : RingQ α) (hinv : rqInv rq) :
    rqInv (rqConsume rq).2 ∧
    (rqConsume rq).2.closed = rq.closed ∧
    ((∃ y, (rqConsume rq).1 = CResult.ok y ∧
        rqCount (rqConsume rq).2 + 1 = rqCount rq) ∨
      ((∀ y, (rqConsume rq).1 ≠ CResult.ok y) ∧ (rqConsume rq).2 = rq)) := by
  obtain ⟨hlen, hh, ht, hcnt, n, hcap⟩ := hinv
  by_cases he : rq.head = rq.tail
  · have hres : rqConsume rq =
        (if rq.closed then ((CResult.eof : CResult α), rq)
         else if rq.nonblocking then (.unavailable, rq) else (.blocked, rq)) := by
      rw [rqConsume, if_pos he]
    by_cases hc : rq.closed
    · rw [hres, if_pos hc]
      exact ⟨⟨hlen, hh, ht, hcnt, n, hcap⟩, rfl, Or.inr ⟨by simp, rfl⟩⟩
    · by_cases hnb : rq.nonblocking
      · rw [hres, if_neg hc, if_pos hnb]
        exact ⟨⟨hlen, hh, ht, hcnt, n, hcap⟩, rfl, Or.inr ⟨by simp, rfl⟩⟩
      · rw [hres, if_neg hc, if_neg hnb]
        exact ⟨⟨hlen, hh, ht, hcnt, n, hcap⟩, rfl, Or.inr ⟨by simp, rfl⟩⟩
  · have hres : rqConsume rq = (CResult.ok (rq.ring.getD rq.head default),
        { rq with head := (rq.head + 1) &&& rq.cap }) := by
      rw [rqConsume, if_neg he]
    have hmask := succ_and_mask hcap hh
    rw [hres, hmask] at *
    refine ⟨⟨hlen, ?_, ht, ?_, n, hcap⟩, rfl, Or.inl ⟨_, rfl, ?_⟩⟩
    · simp only
      split <;> omega
    · simp only [rqCount] at hcnt ⊢
      split_ifs at hcnt ⊢ <;> omega
    · simp only [rqCount] at hcnt ⊢
      split_ifs at hcnt ⊢ <;> omega

theorem rqRun_spec {α : Type} [Inhabited α] (ops : List (RQOp α)) :
    ∀ rq : RingQ α, rqInv rq →
      rqInv (rqRun rq ops).1 ∧
      (rqRun rq ops).1.closed = (rq.closed || (ops.any fun op =>
        match op with | .close => true | _ => false)) ∧
      rqCount (rqRun rq ops).1 + (rqRun rq ops).2.2 = rqCount rq + (rqRun rq ops).2.1 := by
  induction ops with
  | nil => intro rq hinv; exact ⟨hinv, by simp [rqRun], by simp [rqRun]⟩
  | cons op ops ih =>
    intro rq hinv
    match op with
    | .produce x =>
      obtain ⟨hinv', hcl, hstep⟩ := rqProduce_spec rq x hinv
      obtain ⟨rinv, rcl, rcnt⟩ := ih (rqProduce rq x).2 hinv'
      refine ⟨by simpa [rqRun] using rinv, ?_, ?_⟩
      · simpa [rqRun, hcl] using rcl
      · show rqCount (rqRun (rqProduce rq x).2 ops).1 +
          (rqRun (rqProduce rq x).2 ops).2.2 = rqCount rq +
            (if (rqProduce rq x).1 = PResult.ok
              then (rqRun (rqProduce rq x).2 ops).2.1 + 1
              else (rqRun (rqProduce rq x).2 ops).2.1)
        rcases hstep with ⟨hok, hc1⟩ | ⟨hok, heq⟩
        · rw [if_pos hok]
          omega
        · rw [if_neg hok]
          have hceq : rqCount (rqProduce rq x).2 = rqCount rq := by rw [heq]
          omega
    | .consume =>
      obtain ⟨hinv', hcl, hstep⟩ := rqConsume_spec rq hinv
      obtain ⟨rinv, rcl, rcnt⟩ := ih (rqConsume rq).2 hinv'
      refine ⟨by simpa [rqRun] using rinv, ?_, ?_⟩
      · simpa [rqRun, hcl] using rcl
      · show rqCount (rqRun (rqConsume rq).2 ops).1 +
          (match (rqConsume rq).1 with
            | CResult.ok _ => (rqRun (rqConsume rq).2 ops).2.2 + 1
            | _ => (rqRun (rqConsume rq).2 ops).2.2) = rqCount rq +
          (rqRun (rqConsume rq).2 ops).2.1
        rcases hstep with ⟨y, hok, hc1⟩ | ⟨hok, heq⟩
        · have hm : (match (rqConsume rq).1 with
            | CResult.ok _ => (rqRun (rqConsume rq).2 ops).2.2 + 1
            | _ => (rqRun (rqConsume rq).2 ops).2.2) =
              (rqRun (rqConsume rq).2 ops).2.2 + 1 := by
            rw [hok]
          rw [hm]
          omega
        · have hm : (match (rqConsume rq).1 with
            | CResult.ok _ => (rqRun (rqConsume rq).2 ops).2.2 + 1
            | _ => (rqRun (rqConsume rq).2 ops).2.2) =
              (rqRun (rqConsume rq).2 ops).2.2 := by
            cases hr : (rqConsume rq).1 with
            | ok y => exact absurd hr (hok y)
            | eof => rfl
            | unavailable => rfl
            | blocked => rfl
          rw [hm]
          have hceq : rqCount (rqConsume rq).2 = rqCount rq := by rw [heq]
          omega
    | .close =>
      have hinvc : rqInv (rqClose rq) := by
        obtain ⟨hlen, hh, ht, hcnt, n, hcap⟩ := hinv
        exact ⟨hlen, hh, ht, hcnt, n, hcap⟩
      obtain ⟨rinv, rcl, rcnt⟩ := ih (rqClose rq) hinvc
      refine ⟨by simpa [rqRun] using rinv, ?_, ?_⟩
      · have : (rqClose rq).closed = true := rfl
        simp only [rqRun, List.any_cons]
        rw [rcl, this]
        simp
      · have : rqCount (rqClose rq) = rqCount rq := rfl
        simpa [rqRun, this] using rcnt

theorem rqDrain {α : Type} [Inhabited α] (k : Nat) :
    ∀ rq : RingQ α, rqInv rq → rq.closed = true → rqCount rq = k →
      ∃ rq', rqConsumeRun rq k = some rq' ∧ (rqConsume rq').1 = CResult.eof := by
  induction k with
  | zero =>
    intro rq hinv hc h0
    obtain ⟨hlen, hh, ht, hcnt, n, hcap⟩ := hinv
    have hht : rq.head = rq.tail := by
      unfold rqCount at h0
      split at h0 <;> omega
    exact ⟨rq, rfl, by simp [rqConsume, hht, hc]⟩
  | succ k ih =>
    intro rq hinv hc hk
    have hht : rq.head ≠ rq.tail := by
      intro he
      unfold rqCount at hk
      rw [if_pos (le_of_eq he), he] at hk
      omega
    obtain ⟨hinv', hcl, hstep⟩ := rqConsume_spec rq hinv
    rcases hstep with ⟨y, hok, hc1⟩ | ⟨hok, _⟩
    · obtain ⟨rq', hrun, heof⟩ := ih (rqConsume rq).2 hinv' (by rw [hcl]; exact hc) (by omega)
      refine ⟨rq', ?_, heof⟩
      rw [rqConsumeRun]
      have hpair : rqConsume rq = ((rqConsume rq).1, (rqConsume rq).2) := rfl
      rw [hpair, hok]
      exact hrun
    · exfalso
      have : (rqConsume rq).1 = CResult.ok (rq.ring.getD rq.head default) := by
        rw [rqConsume, if_neg hht]
      exact hok _ this

/-- Claim C3: for every ring queue and every operation sequence after
which close() returns, every later produce fails with the closed-pipe
error, close is idempotent (both for the plain variant and for the
concurrent tail-word Close), and exactly (successful produces −
successful consumes) further consumes succeed before consume returns
the end-of-stream error. -/
theorem ringQueue_after_close (α : Type) [Inhabited α] (c : Nat) (nb : Bool)
    (ops : List (RQOp α)) (hc1 : 1 ≤ c) (hc2 : c < 2 ^ 30) :
    (∀ (s : RingQ α) (x : α), s.closed = true →
      rqProduce s x = (PResult.closedPipe, s)) ∧
    (∀ s : RingQ α, rqClose (rqClose s) = rqClose s) ∧
    (∀ t u : Nat, rqcClose t = some u → rqcClose u = some u) ∧
    (∃ rq', rqConsumeRun (rqClose (rqRun (mkRingQ α c nb) ops).1)
        ((rqRun (mkRingQ α c nb) ops).2.1 - (rqRun (mkRingQ α c nb) ops).2.2) = some rq' ∧
      (rqConsume rq').1 = CResult.eof) := by
  refine ⟨fun s x h => rqProduce_closed s x h, fun s => rfl, ?_, ?_⟩
  · intro t u hu
    rw [rqcClose] at hu
    by_cases h1 : t &&& ringQueueStatusClosed = ringQueueStatusClosed
    · rw [if_pos h1] at hu
      cases hu
      rw [rqcClose, if_pos h1]
    · rw [if_neg h1] at hu
      by_cases h2 : t &&& ringQueueStatusWriting = ringQueueStatusWriting
      · rw [if_pos h2] at hu
        cases hu
      · rw [if_neg h2] at hu
        cases hu
        have hcl : (t ||| ringQueueStatusClosed) &&& ringQueueStatusClosed =
            ringQueueStatusClosed := by
          apply Nat.eq_of_testBit_eq
          intro i
          rw [Nat.testBit_and, Nat.testBit_or]
          cases t.testBit i <;> cases (ringQueueStatusClosed).testBit i <;> simp
        rw [rqcClose, if_pos hcl]
  · have hinv0 : rqInv (mkRingQ α c nb) := by
      refine ⟨by simp [mkRingQ], by simp [mkRingQ], by simp [mkRingQ], ?_, ?_⟩
      · simp [mkRingQ, rqCount]
      · refine ⟨Nat.size c, ?_⟩
        have := capRound_eq c (by omega) (by
          have : c < 2 ^ 32 := by
            calc c < 2 ^ 30 := hc2
            _ ≤ 2 ^ 32 := by norm_num
          exact this)
        simpa [mkRingQ, nextAllOnes] using this
    obtain ⟨rinv, _, rcnt⟩ := rqRun_spec ops (mkRingQ α c nb) hinv0
    have h0 : rqCount (mkRingQ α c nb) = 0 := by simp [mkRingQ, rqCount]
    rw [h0] at rcnt
    set r := rqRun (mkRingQ α c nb) ops with hr
    have hinvc : rqInv (rqClose r.1) := by
      obtain ⟨hlen, hh, ht, hcnt, n, hcap⟩ := rinv
      exact ⟨hlen, hh, ht, hcnt, n, hcap⟩
    have hcntc : rqCount (rqClose r.1) = r.2.1 - r.2.2 := by
      have : rqCount (rqClose r.1) = rqCount r.1 := rfl
      omega
    exact rqDrain _ (rqClose r.1) hinvc rfl hcntc

/-- Witness for C3: a concrete queue of capacity 3 with two produces and
one consume drains exactly one item after close, then reports
end-of-stream. -/
theorem ringQueue_after_close_witness :
    (1 ≤ 3 ∧ 3 < 2 ^ 30) ∧
    (∃ rq', rqConsumeRun
        (rqClose (rqRun (mkRingQ Nat 3 true) [.produce 7, .produce 9, .consume]).1)
        ((rqRun (mkRingQ Nat 3 true) [.produce 7, .produce 9, .consume]).2.1 -
          (rqRun (mkRingQ Nat 3 true) [.produce 7, .produce 9, .consume]).2.2) = some rq' ∧
      (rqConsume rq').1 = CResult.eof) :=
  ⟨by norm_num,
   (ringQueue_after_close Nat 3 true [.produce 7, .produce 9, .consume]
     (by norm_num) (by norm_num)).2.2.2⟩

/-! ### Scenario S2 (ring_queue_test.go testRingQueueNonblocking) -/

inductive TOut where
  | pOk
  | cOk (x : Nat)
  | closeOk
  | una
  | pipe
  | eofOut
  | blockedOut
  deriving DecidableEq

def rqTrace : RingQ Nat → List (RQOp Nat) → List TOut
  | _, [] => []
  | rq, .produce x :: ops =>
      let pr := rqProduce rq x
      (match pr.1 with
        | .ok => TOut.pOk
        | .closedPipe => TOut.pipe
        | .unavailable => TOut.una
        | .blocked => TOut.blockedOut) :: rqTrace pr.2 ops
  | rq, .consume :: ops =>
      let cr := rqConsume rq
      (match cr.1 with
        | .ok x => TOut.cOk x
        | .eof => TOut.eofOut
        | .unavailable => TOut.una
        | .blocked => TOut.blockedOut) :: rqTrace cr.2 ops
  | rq, .close :: ops => TOut.closeOk :: rqTrace (rqClose rq) ops

/-- The operation sequence exactly as stated by claim C4 (no produce(7)
step before close). -/
def s2OpsClaimed : List (RQOp Nat) :=
  [.consume, .produce 1, .consume, .consume, .produce 2, .produce 3, .produce 4,
   .consume, .produce 5, .produce 6, .consume, .consume, .close, .produce 8,
   .consume, .consume, .consume]

/-- The operation sequence as actually exercised by the repository test,
which performs produce(7) after consuming 4 and before close. -/
def s2OpsActual : List (RQOp Nat) :=
  [.consume, .produce 1, .consume, .consume, .produce 2, .produce 3, .produce 4,
   .consume, .produce 5, .produce 6, .consume, .consume, .produce 7, .close,
   .produce 8, .consume, .consume, .consume]

/-- Counterexample to claim C4: on the exact sequence the claim states
(which never produces 7), the second post-close consume returns
end-of-stream, not the value 7; the full observed trace is given and the
claimed trace is refuted. -/
theorem s2_claimed_sequence_refuted :
    rqTrace (mkRingQ Nat 3 true) s2OpsClaimed =
      [.una, .pOk, .cOk 1, .una, .pOk, .pOk, .pOk, .cOk 2, .pOk, .una,
       .cOk 3, .cOk 4, .closeOk, .pipe, .cOk 5, .eofOut, .eofOut] ∧
    rqTrace (mkRingQ Nat 3 true) s2OpsClaimed ≠
      [.una, .pOk, .cOk 1, .una, .pOk, .pOk, .pOk, .cOk 2, .pOk, .una,
       .cOk 3, .cOk 4, .closeOk, .pipe, .cOk 5, .cOk 7, .eofOut] := by
  constructor
  · decide
  · decide

/-- Claim C4 as amended: with the produce(7) step (present in the
repository test but dropped by the claim) restored between the consume
returning 4 and close, the capacity-0x3 nonblocking SPSC queue produces
exactly the stated outcomes, ending consume→5, consume→7,
consume→end-of-stream. -/
theorem s2_actual_sequence_trace :
    rqTrace (mkRingQ Nat 3 true) s2OpsActual =
      [.una, .pOk, .cOk 1, .una, .pOk, .pOk, .pOk, .cOk 2, .pOk, .una,
       .cOk 3, .cOk 4, .pOk, .closeOk, .pipe, .cOk 5, .cOk 7, .eofOut] := by
  decide

/-! ### Message framer header codec (message.go)

The original message protocol: first byte 0..253 is the payload length;
254 flags a following big/little-endian uint16 length; 255 flags a
56-bit length carried in the remaining 7 bytes of an 8-byte header. -/

inductive ByteOrder where
  | big
  | little
  deriving DecidableEq

def putUint16 : ByteOrder → Nat → List Nat
  | .big, v => [v / 2 ^ 8 % 2 ^ 8, v % 2 ^ 8]
  | .little, v => [v % 2 ^ 8, v / 2 ^ 8 % 2 ^ 8]

def getUint16 : ByteOrder → List Nat → Nat
  | .big, b => b.getD 0 0 * 2 ^ 8 + b.getD 1 0
  | .little, b => b.getD 1 0 * 2 ^ 8 + b.getD 0 0

def putUint64 : ByteOrder → Nat → List Nat
  | .big, v => [v / 2 ^ 56 % 2 ^ 8, v / 2 ^ 48 % 2 ^ 8, v / 2 ^ 40 % 2 ^ 8,
      v / 2 ^ 32 % 2 ^ 8, v / 2 ^ 24 % 2 ^ 8, v / 2 ^ 16 % 2 ^ 8, v / 2 ^ 8 % 2 ^ 8,
      v % 2 ^ 8]
  | .little, v => [v % 2 ^ 8, v / 2 ^ 8 % 2 ^ 8, v / 2 ^ 16 % 2 ^ 8, v / 2 ^ 24 % 2 ^ 8,
      v / 2 ^ 32 % 2 ^ 8, v / 2 ^ 40 % 2 ^ 8, v / 2 ^ 48 % 2 ^ 8, v / 2 ^ 56 % 2 ^ 8]

def getUint64 : ByteOrder → List Nat → Nat
  | .big, b => b.getD 0 0 * 2 ^ 56 + b.getD 1 0 * 2 ^ 48 + b.getD 2 0 * 2 ^ 40 +
      b.getD 3 0 * 2 ^ 32 + b.getD 4 0 * 2 ^ 24 + b.getD 5 0 * 2 ^ 16 +
      b.getD 6 0 * 2 ^ 8 + b.getD 7 0
  | .little, b => b.getD 7 0 * 2 ^ 56 + b.getD 6 0 * 2 ^ 48 + b.getD 5 0 * 2 ^ 40 +
      b.getD 4 0 * 2 ^ 32 + b.getD 3 0 * 2 ^ 24 + b.getD 2 0 * 2 ^ 16 +
      b.getD 1 0 * 2 ^ 8 + b.getD 0 0

def messagePayloadMaxLength8Bits : Nat := 2 ^ 8 - 3

def messagePayloadMaxLength16Bits : Nat := 2 ^ 16 - 1

def messagePayloadMaxLength56Bits : Nat := 2 ^ 56 - 1

/-- Write a list of bytes into an existing buffer starting at a given
position (a Go copy into a sub-slice). -/
def overwriteAt : List Nat → Nat → List Nat → List Nat
  | l, _, [] => l
  | l, pos, b :: bs => overwriteAt (l.set pos b) (pos + 1) bs

/-- Extension-length selection in writeStream (message.go lines 436-443). -/
def exLengthBytesOfLength (L : Nat) : Nat :=
  if L ≤ messagePayloadMaxLength8Bits then 0
  else if L ≤ messagePayloadMaxLength16Bits then 2
  else 7

/-- Header construction in writeStream (message.go lines 444-457),
writing into the persistent 8-byte header buffer. -/
def encodeHeaderInto (bo : ByteOrder) (L : Nat) (prev : List Nat) : List Nat :=
  if L ≤ messagePayloadMaxLength8Bits then prev.set 0 L
  else if L ≤ messagePayloadMaxLength16Bits then
    overwriteAt (prev.set 0 (messagePayloadMaxLength8Bits + 1)) 1 (putUint16 bo (L % 2 ^ 16))
  else
    (putUint64 bo (if bo = ByteOrder.little then L * 2 ^ 8 % 2 ^ 64
      else L &&& messagePayloadMaxLength56Bits)).set 0 (messagePayloadMaxLength8Bits + 2)

/-- The header bytes a fresh writeStream call emits for a payload of
length L: the first 1+ex bytes of the encoded header buffer. -/
def encodeHeader (bo : ByteOrder) (L : Nat) : List Nat :=
  (encodeHeaderInto bo L (List.replicate 8 0)).take (1 + exLengthBytesOfLength L)

/-- Extension-length selection in readStream (message.go lines 262-266). -/
def extLengthBytesOfB0 (b0 : Nat) : Nat :=
  if b0 = messagePayloadMaxLength8Bits + 1 then 2
  else if b0 = messagePayloadMaxLength8Bits + 2 then 7
  else 0

/-- Length decoding in readStream (message.go lines 286-298) from the
8-byte header buffer (of which the first 1+ex bytes were filled). -/
def decodeLength (bo : ByteOrder) (hdr : List Nat) : Nat :=
  let ex := extLengthBytesOfB0 (hdr.getD 0 0)
  if ex = 2 then getUint16 bo (hdr.drop 1)
  else if ex = 7 then
    (if bo = ByteOrder.little then getUint64 .little hdr / 2 ^ 8
     else getUint64 .big hdr &&& messagePayloadMaxLength56Bits)
  else hdr.getD 0 0

theorem max8_eq : messagePayloadMaxLength8Bits = 253 := rfl

theorem max16_eq : messagePayloadMaxLength16Bits = 65535 := rfl

theorem max56_eq : messagePayloadMaxLength56Bits = 2 ^ 56 - 1 := rfl

set_option maxHeartbeats 1000000 in
/-- Claim C2: the stream framer header encoding matches the reference
definition — 1-byte header equal to the length for 0..253; 3-byte
header 0xFE plus a 16-bit length in the configured byte order for
254..65535 (so 253, 254, 255 and 65535 use 1-, 3-, 3- and 3-byte
headers); 8-byte header 0xFF carrying the low 56 bits for
65536..2^56−1, stored as (length << 8) under little-endian so the first
byte stays 0xFF; and the reader decodes every such header back to the
same length. -/
theorem header_encoding_matches_reference (bo : ByteOrder) (L : Nat)
    (hL : L ≤ messagePayloadMaxLength56Bits) :
    (L ≤ 253 → encodeHeader bo L = [L]) ∧
    (254 ≤ L → L ≤ 65535 →
      encodeHeader bo L = 254 :: putUint16 bo L ∧ (encodeHeader bo L).length = 3) ∧
    (65536 ≤ L →
      (encodeHeader bo L).length = 8 ∧ (encodeHeader bo L).getD 0 0 = 255 ∧
      (bo = ByteOrder.little →
        encodeHeader bo L = (putUint64 .little (L * 2 ^ 8 % 2 ^ 64)).set 0 255)) ∧
    decodeLength bo (encodeHeader bo L) = L := by
  rw [max56_eq] at hL
  by_cases h8 : L ≤ 253
  · have henc : encodeHeader bo L = [L] := by
      unfold encodeHeader encodeHeaderInto
      rw [max8_eq, if_pos h8]
      unfold exLengthBytesOfLength
      rw [max8_eq, if_pos h8]
      rfl
    have hExt : extLengthBytesOfB0 L = 0 := by
      unfold extLengthBytesOfB0
      rw [max8_eq, if_neg (by omega), if_neg (by omega)]
    refine ⟨fun _ => henc, fun h _ => by omega, fun h => by omega, ?_⟩
    rw [henc]
    unfold decodeLength
    simp only [List.getD_cons_zero, hExt]
    norm_num
  · by_cases h16 : L ≤ 65535
    · have henc : encodeHeader bo L = 254 :: putUint16 bo L := by
        unfold encodeHeader encodeHeaderInto
        rw [max8_eq, max16_eq, if_neg h8, if_pos h16,
          Nat.mod_eq_of_lt (show L < 2 ^ 16 by omega)]
        unfold exLengthBytesOfLength
        rw [max8_eq, max16_eq, if_neg h8, if_pos h16]
        cases bo <;> rfl
      have hExt : extLengthBytesOfB0 254 = 2 := by decide
      refine ⟨fun h => by omega, fun _ _ => ⟨henc, by rw [henc]; cases bo <;> rfl⟩,
        fun h => by omega, ?_⟩
      rw [henc]
      unfold decodeLength
      simp only [List.getD_cons_zero, hExt]
      norm_num
      cases bo <;>
        simp only [getUint16, putUint16, List.drop_succ_cons, List.drop_zero,
          List.getD_cons_zero, List.getD_cons_succ] <;>
        omega
    · have hex7 : exLengthBytesOfLength L = 7 := by
        unfold exLengthBytesOfLength
        rw [max8_eq, max16_eq, if_neg h8, if_neg h16]
      have hExt : extLengthBytesOfB0 255 = 7 := by decide
      cases bo
      · have hmask : L &&& messagePayloadMaxLength56Bits = L := by
          rw [max56_eq, Nat.and_pow_two_sub_one_eq_mod]
          exact Nat.mod_eq_of_lt (by omega)
        have henc : encodeHeader .big L =
            [255, L / 2 ^ 48 % 2 ^ 8, L / 2 ^ 40 % 2 ^ 8, L / 2 ^ 32 % 2 ^ 8,
             L / 2 ^ 24 % 2 ^ 8, L / 2 ^ 16 % 2 ^ 8, L / 2 ^ 8 % 2 ^ 8, L % 2 ^ 8] := by
          unfold encodeHeader encodeHeaderInto
          rw [max8_eq, max16_eq, if_neg h8, if_neg h16,
            if_neg (show ¬ ByteOrder.big = ByteOrder.little by decide), hmask, hex7]
          rfl
        refine ⟨fun h => by omega, fun h h' => by omega,
          fun _ => ⟨by rw [henc]; rfl, by rw [henc]; rfl,
            fun hba => absurd hba (by decide)⟩, ?_⟩
        rw [henc]
        unfold decodeLength
        simp only [List.getD_cons_zero, hExt]
        rw [if_pos trivial, if_neg (show ¬ ByteOrder.big = ByteOrder.little by decide),
          if_neg (show ¬ (7 : Nat) = 2 by decide)]
        simp only [getUint64, List.getD_cons_zero, List.getD_cons_succ]
        rw [max56_eq, Nat.and_pow_two_sub_one_eq_mod]
        omega
      · have hv : L * 2 ^ 8 % 2 ^ 64 = L * 2 ^ 8 := Nat.mod_eq_of_lt (by omega)
        have henc : encodeHeader .little L =
            [255, L * 2 ^ 8 / 2 ^ 8 % 2 ^ 8, L * 2 ^ 8 / 2 ^ 16 % 2 ^ 8,
             L * 2 ^ 8 / 2 ^ 24 % 2 ^ 8, L * 2 ^ 8 / 2 ^ 32 % 2 ^ 8,
             L * 2 ^ 8 / 2 ^ 40 % 2 ^ 8, L * 2 ^ 8 / 2 ^ 48 % 2 ^ 8,
             L * 2 ^ 8 / 2 ^ 56 % 2 ^ 8] := by
          unfold encodeHeader encodeHeaderInto
          rw [max8_eq, max16_eq, if_neg h8, if_neg h16, if_pos rfl, hv, hex7]
          rfl
        refine ⟨fun h => by omega, fun h h' => by omega,
          fun _ => ⟨by rw [henc]; rfl, by rw [henc]; rfl, fun _ => ?_⟩, ?_⟩
        · rw [henc, hv, putUint64]
          rfl
        · rw [henc]
          unfold decodeLength
          simp only [List.getD_cons_zero, hExt]
          rw [if_pos trivial, if_pos trivial, if_neg (show ¬ (7 : Nat) = 2 by decide)]
          simp only [getUint64, List.getD_cons_zero, List.getD_cons_succ]
          have e1 : L * 2 ^ 8 / 2 ^ 8 = L := by omega
          have e2 : L * 2 ^ 8 / 2 ^ 16 = L / 2 ^ 8 := by omega
          have e3 : L * 2 ^ 8 / 2 ^ 24 = L / 2 ^ 16 := by omega
          have e4 : L * 2 ^ 8 / 2 ^ 32 = L / 2 ^ 24 := by omega
          have e5 : L * 2 ^ 8 / 2 ^ 40 = L / 2 ^ 32 := by omega
          have e6 : L * 2 ^ 8 / 2 ^ 48 = L / 2 ^ 40 := by omega
          have e7 : L * 2 ^ 8 / 2 ^ 56 = L / 2 ^ 48 := by omega
          rw [e1, e2, e3, e4, e5, e6, e7]
          omega

/-- Witness for C2 at length 300 with big-endian order: the 3-byte
header 0xFE 0x01 0x2C decodes back to 300. -/
theorem header_encoding_matches_reference_witness :
    (300 ≤ messagePayloadMaxLength56Bits) ∧
    encodeHeader .big 300 = [254, 1, 44] ∧
    decodeLength .big (encodeHeader .big 300) = 300 := by
  have h := header_encoding_matches_reference .big 300 (by decide)
  refine ⟨by decide, ?_, h.2.2.2⟩
  have h3 := (h.2.1 (by norm_num) (by norm_num)).1
  rw [h3]
  decide

/-! ### Stream reader (message.go readStream, lines 237-334)

The underlying transport is a byte stream plus a chunk schedule: each
Read call returns at most the next scheduled chunk size, never more
than the destination slice length, and reports end-of-file when the
stream is exhausted.  The three read loops follow the source: the
1-byte header loop reads into header[offset:1], the extension-header
loop reads into header[1:1+ex] (the source does not advance this
destination by the saved offset), and the payload loop reads into
p[offset-1-ex:length].  Loop fuel only bounds the number of Read calls.
-/

structure MsgRead where
  rbo : ByteOrder
  readLimit : Nat
  nonblock : Bool
  header : List Nat
  length : Nat
  offset : Nat
  deriving DecidableEq

inductive ReadErr where
  | unexpectedEOF
  | shortBuffer
  | tooLong
  | outOfFuel
  deriving DecidableEq

def rdHeaderLoop : Nat → MsgRead → List Nat → List Nat →
    Except ReadErr (MsgRead × List Nat × List Nat)
  | 0, _, _, _ => .error .outOfFuel
  | fuel + 1, st, stream, chunks =>
    if st.offset < 1 then
      match stream with
      | [] => .error .unexpectedEOF
      | _ =>
        let c := chunks.headD 1
        let taken := stream.take (min c (1 - st.offset))
        rdHeaderLoop fuel
          { st with header := overwriteAt st.header st.offset taken,
                    offset := st.offset + taken.length }
          (stream.drop taken.length) chunks.tail
    else .ok (st, stream, chunks)

def rdExtLoop : Nat → Nat → MsgRead → List Nat → List Nat →
    Except ReadErr (MsgRead × List Nat × List Nat)
  | 0, _, _, _, _ => .error .outOfFuel
  | fuel + 1, ex, st, stream, chunks =>
    if st.offset < 1 + ex then
      match stream with
      | [] => .error .unexpectedEOF
      | _ =>
        let c := chunks.headD 1
        let taken := stream.take (min c ex)
        rdExtLoop fuel ex
          { st with header := overwriteAt st.header 1 taken,
                    offset := st.offset + taken.length }
          (stream.drop taken.length) chunks.tail
    else .ok (st, stream, chunks)

def rdPayloadLoop : Nat → Nat → MsgRead → List Nat → List Nat → Nat → List Nat →
    Except ReadErr (Nat × List Nat × MsgRead × List Nat × List Nat)
  | 0, _, _, _, _, _, _ => .error .outOfFuel
  | fuel + 1, ex, st, stream, chunks, n, buf =>
    if st.offset < 1 + ex + st.length then
      match stream with
      | [] => .error .unexpectedEOF
      | _ =>
        let c := chunks.headD 1
        let pos := st.offset - 1 - ex
        let taken := stream.take (min c (st.length - pos))
        rdPayloadLoop fuel ex { st with offset := st.offset + taken.length }
          (stream.drop taken.length) chunks.tail (n + taken.length)
          (overwriteAt buf pos taken)
    else .ok (n, buf, st, stream, chunks)

/-- One readStream call on a caller buffer of length plen, returning the
byte count and the filled payload on success. -/
def readStream (fuel : Nat) (st : MsgRead) (stream chunks : List Nat) (plen : Nat) :
    Except ReadErr (Nat × List Nat) :=
  match rdHeaderLoop fuel st stream chunks with
  | .error e => .error e
  | .ok (st1, stream1, chunks1) =>
    if 0 < st1.readLimit ∧ st1.readLimit < st1.length then .error .tooLong
    else
      let ex := extLengthBytesOfB0 (st1.header.getD 0 0)
      if st1.header.length < 1 + ex then .error .shortBuffer
      else
        match (if st1.offset < 1 + ex then rdExtLoop fuel ex st1 stream1 chunks1
               else .ok (st1, stream1, chunks1)) with
        | .error e => .error e
        | .ok (st2, stream2, chunks2) =>
          let st3 := if st2.offset = 1 + ex
            then { st2 with length := decodeLength st2.rbo st2.header }
            else st2
          if 0 < st3.readLimit ∧ st3.readLimit < st3.length then .error .tooLong
          else if plen < st3.length then .error .shortBuffer
          else
            match rdPayloadLoop fuel ex st3 stream2 chunks2 0 (List.replicate plen 0) with
            | .error e => .error e
            | .ok (n, buf, st4, _, _) => .ok (n, buf.take st4.length)

/-- A fresh stream-mode reader with the default big-endian order and no
read limit. -/
def freshReader : MsgRead :=
  { rbo := .big, readLimit := 0, nonblock := false,
    header := List.replicate 8 0, length := 0, offset := 0 }

/-- Sanity check: a 1-byte-header frame (payload 0x41 0x42 0x43 0x44)
delivered byte-at-a-time is reassembled into exactly the payload. -/
theorem readStream_small_frame_bytewise_ok :
    readStream 20 freshReader ([4, 65, 66, 67, 68]) (List.replicate 20 1) 4 =
      .ok (4, [65, 66, 67, 68]) := by rfl

set_option maxRecDepth 4096 in
/-- Sanity check: an extended-header frame (payload length 254) whose
extension header arrives in a single 2-byte Read is reassembled
correctly. -/
theorem readStream_ext_frame_aligned_ok :
    readStream 600 freshReader (encodeHeader .big 254 ++ List.replicate 254 7)
      ([1, 2] ++ List.replicate 600 254) 254 =
      .ok (254, List.replicate 254 7) := by rfl

set_option maxRecDepth 4096 in
/-- Claim C1 (code bug): for the valid 254-byte frame produced by the
stream writer (header FE 00 FE), byte-at-a-time delivery makes
readStream overwrite header[1] on each 1-byte extension read — the
source passes header[1:3] to every resumed Read instead of advancing by
the saved offset — so the decoded length becomes 0xFE00 = 65024 and the
read fails with short-buffer instead of returning the 254 payload
bytes.  This contradicts the spec sentence that byte-at-a-time delivery
from the wire still produces whole frames. -/
theorem streamFramer_bytewise_ext_header_read_fails :
    readStream 600 freshReader (encodeHeader .big 254 ++ List.replicate 254 0)
        (List.replicate 600 1) 254 = .error .shortBuffer ∧
    (Except.error ReadErr.shortBuffer : Except ReadErr (Nat × List Nat)) ≠
      .ok (254, List.replicate 254 0) := by
  exact ⟨by rfl, fun h => Except.noConfusion h⟩

/-! ### Stream writer (message.go writeStream, lines 422-485)

The write transport accepts, per Write call, at most the next scheduled
chunk size (an empty schedule accepts everything) and never fails.  The
model records the header bytes the loop hands to the transport and, for
the payload loop, the length of the accepted prefix of each call: the
source passes p[:length-(offset-1-ex)] — a prefix of the payload — to
every resumed payload write, so the accepted bytes of call i are
p[0:wn_i]. -/

structure MsgWrite where
  wbo : ByteOrder
  nonblock : Bool
  header : List Nat
  length : Nat
  offset : Nat
  deriving DecidableEq

inductive WriteErr where
  | tooLong
  | shortWrite
  | outOfFuel
  deriving DecidableEq

def wrHeaderLoop : Nat → Nat → MsgWrite → List Nat → List Nat →
    Except WriteErr (MsgWrite × List Nat × List Nat)
  | 0, _, _, _, _ => .error .outOfFuel
  | fuel + 1, ex, st, chunks, emitted =>
    if st.offset < 1 + ex then
      let dst := (st.header.drop st.offset).take (1 + ex - st.offset)
      let c := chunks.headD dst.length
      let taken := dst.take c
      wrHeaderLoop fuel ex { st with offset := st.offset + taken.length }
        chunks.tail (emitted ++ taken)
    else .ok (st, chunks, emitted)

def wrPayloadLoop : Nat → Nat → MsgWrite → List Nat → Nat → List Nat →
    Except WriteErr (MsgWrite × List Nat × Nat × List Nat)
  | 0, _, _, _, _, _ => .error .outOfFuel
  | fuel + 1, ex, st, chunks, n, prefLens =>
    if st.offset < 1 + ex + st.length then
      let k := st.length - (st.offset - 1 - ex)
      let c := chunks.headD k
      let wn := min c k
      wrPayloadLoop fuel ex { st with offset := st.offset + wn } chunks.tail
        (n + wn) (prefLens ++ [wn])
    else .ok (st, chunks, n, prefLens)

/-- One writeStream call for a payload of length plen, returning the
payload byte count, the header bytes handed to the transport, and the
accepted payload prefix length of each payload Write call. -/
def writeStream (fuel : Nat) (st : MsgWrite) (plen : Nat) (chunks : List Nat) :
    Except WriteErr (Nat × List Nat × List Nat) :=
  if messagePayloadMaxLength56Bits < st.length then .error .tooLong
  else
    let st := if st.offset = 0 then { st with length := plen } else st
    let ex := exLengthBytesOfLength st.length
    let st := if st.offset = 0
      then { st with header := encodeHeaderInto st.wbo st.length st.header } else st
    match wrHeaderLoop fuel ex st chunks [] with
    | .error e => .error e
    | .ok (st1, chunks1, emitted) =>
      if st1.length ≠ st1.offset - 1 - ex + plen then .error .shortWrite
      else
        match wrPayloadLoop fuel ex st1 chunks1 0 [] with
        | .error e => .error e
        | .ok (st2, _, n, prefLens) =>
          if st2.offset < 1 + st2.length then .error .shortWrite
          else .ok (n, emitted, prefLens)

def freshWriter (bo : ByteOrder) : MsgWrite :=
  { wbo := bo, nonblock := false, header := List.replicate 8 0, length := 0, offset := 0 }

/-- Sanity check: a full-accepting transport carries a 4-byte frame as
header 0x04 plus all 4 payload bytes in one call. -/
theorem writeStream_small_frame_ok :
    writeStream 10 (freshWriter .big) 4 [] = .ok (4, [4], [4]) := by rfl

/-- Sanity check (write-side chunking slip): when the transport accepts
one byte per call, the payload loop re-sends a prefix of the payload on
each resumed call — for a 2-byte payload the accepted prefix lengths
are [1, 1], i.e. byte p[0] is emitted twice and p[1] never. -/
theorem writeStream_bytewise_resends_first_byte :
    writeStream 10 (freshWriter .big) 2 [1, 1, 1, 1] =
      .ok (2, [2], [1, 1]) := by rfl

/-- Claim C7 (code bug): on a fresh stream writer, a payload longer than
2^56−1 bytes is not rejected: the too-long check reads msg.length
before it is assigned from len(p), so a first write of a 2^56-byte
payload succeeds, emitting an 8-byte header whose 56-bit field is
2^56 mod 2^56 = 0 followed by the whole payload, instead of failing
with the too-long error and writing nothing. -/
theorem writeStream_overlong_payload_not_rejected :
    writeStream 10 (freshWriter .big) (2 ^ 56) [] =
      .ok (2 ^ 56, [255, 0, 0, 0, 0, 0, 0, 0], [2 ^ 56]) ∧
    writeStream 10 (freshWriter .big) (2 ^ 56) [] ≠ .error WriteErr.tooLong := by
  have h : writeStream 10 (freshWriter .big) (2 ^ 56) [] =
      .ok (2 ^ 56, [255, 0, 0, 0, 0, 0, 0, 0], [2 ^ 56]) := by rfl
  exact ⟨h, by rw [h]; exact fun hh => Except.noConfusion hh⟩

/-! ### Page-aligned block groups (buffers.go AlignedMemBlocks)

AlignedMemBlocks(n) allocates (n+1)*pagesize bytes at some base address
ptr, computes off = ptr - (ptr & ^(pagesize-1)) with 64-bit uintptr
arithmetic, and carves block i out of the parent at index i*pagesize-off
— a Go slice index that panics when negative or beyond the parent.  We
model the page size as 2^k and a block as its (address, length) pair. -/

def alignOff (size ptr : Nat) : Nat :=
  ptr - (ptr &&& ((2 ^ 64 - 1) ^^^ (size - 1)))

def alignedBlockAddr (size n ptr i : Nat) : Option (Nat × Nat) :=
  let off := alignOff size ptr
  if i * size < off then none
  else if size * (n + 1) ≤ i * size - off then none
  else some (ptr + (i * size - off), size)

def alignedMemBlocks (size n ptr : Nat) : Option (List (Nat × Nat)) :=
  if n < 1 then none
  else (List.range n).mapM (alignedBlockAddr size n ptr)

theorem testBit_false_of_two_pow_dvd {k ptr : Nat} (hd : 2 ^ k ∣ ptr) {i : Nat}
    (hik : i < k) : ptr.testBit i = false := by
  obtain ⟨a, ha⟩ := hd
  subst ha
  rw [Nat.testBit_to_div_mod]
  have hdiv : 2 ^ k * a / 2 ^ i = 2 ^ (k - i) * a := by
    rw [show 2 ^ k = 2 ^ i * 2 ^ (k - i) by rw [← pow_add]; congr 1; omega, Nat.mul_assoc,
      Nat.mul_div_cancel_left _ (Nat.pos_pow_of_pos _ (by omega))]
  have hmod : 2 ^ (k - i) * a % 2 = 0 := by
    have h2 : (2 : Nat) ∣ 2 ^ (k - i) * a :=
      Dvd.dvd.mul_right (dvd_pow_self 2 (by omega : k - i ≠ 0)) a
    omega
  rw [hdiv, hmod]
  decide

theorem alignOff_zero_of_aligned {k ptr : Nat} (hp : ptr < 2 ^ 64) (hd : 2 ^ k ∣ ptr) :
    alignOff (2 ^ k) ptr = 0 := by
  have hland : ptr &&& ((2 ^ 64 - 1) ^^^ (2 ^ k - 1)) = ptr := by
    apply Nat.eq_of_testBit_eq
    intro i
    rw [Nat.testBit_and, Nat.testBit_xor, Nat.testBit_two_pow_sub_one,
      Nat.testBit_two_pow_sub_one]
    cases hb : ptr.testBit i
    · simp
    · have hik : ¬ i < k := fun hik =>
        Bool.false_ne_true ((testBit_false_of_two_pow_dvd hd hik) ▸ hb)
      have hi64 : i < 64 := by
        by_contra h64
        have : ptr < 2 ^ i := by
          calc ptr < 2 ^ 64 := hp
          _ ≤ 2 ^ i := Nat.pow_le_pow_right (by omega) (by omega)
        exact Bool.false_ne_true ((Nat.testBit_lt_two_pow this) ▸ hb)
      simp [hik, hi64]
  rw [alignOff, hland]
  omega

theorem mapM_some_of_forall {β : Type} {f : Nat → Option β} {g : Nat → β} :
    ∀ l : List Nat, (∀ i ∈ l, f i = some (g i)) → l.mapM f = some (l.map g) := by
  intro l
  induction l with
  | nil => intro _; rfl
  | cons a l ih =>
    intro h
    rw [List.mapM_cons, h a (List.mem_cons_self a l),
      ih (fun i hi => h i (List.mem_cons_of_mem _ hi))]
    rfl

/-- Counterexample to claim C5 as stated: with page size 4096 and a
parent allocation whose base address 4097 is one byte past a page
boundary, block 0 would start at slice index 0*4096 - 1 = -1, the
out-of-range branch is taken and the carve fails (a Go panic). -/
theorem alignedMemBlocks_unaligned_base_fails :
    alignedBlockAddr 4096 1 4097 0 = none ∧ alignedMemBlocks 4096 1 4097 = none := by
  constructor
  · rfl
  · rfl

/-- Claim C5 as amended: for every N ≥ 1 and every page-aligned base
address of the backing (N+1)*pagesize allocation (with pagesize a power
of two and a 64-bit address), AlignedMemBlocks(N) returns exactly N
blocks, block i starting at byte offset i*pagesize of the parent (so
every slicing index is within the parent and the out-of-range branch is
not taken), each of length pagesize and with base address divisible by
pagesize. -/
theorem alignedMemBlocks_aligned_base (k n ptr : Nat) (hn : 1 ≤ n) (hp : ptr < 2 ^ 64)
    (hd : 2 ^ k ∣ ptr) :
    alignedMemBlocks (2 ^ k) n ptr =
      some ((List.range n).map fun i => (ptr + i * 2 ^ k, 2 ^ k)) ∧
    ((List.range n).map fun i => (ptr + i * 2 ^ k, 2 ^ k)).length = n ∧
    (∀ b ∈ (List.range n).map fun i => (ptr + i * 2 ^ k, 2 ^ k),
      2 ^ k ∣ b.1 ∧ b.2 = 2 ^ k) := by
  have hoff := alignOff_zero_of_aligned hp hd
  have hpos : 0 < 2 ^ k := Nat.pos_pow_of_pos _ (by omega)
  refine ⟨?_, by simp, ?_⟩
  · rw [alignedMemBlocks, if_neg (by omega)]
    apply mapM_some_of_forall
    intro i hi
    have hin : i < n := List.mem_range.mp hi
    rw [alignedBlockAddr]
    simp only [hoff]
    rw [if_neg (by omega), if_neg ?_]
    · rw [Nat.sub_zero]
    · intro hge
      rw [Nat.sub_zero] at hge
      have hle : (n + 1) * 2 ^ k ≤ i * 2 ^ k := by
        rw [Nat.mul_comm (2 ^ k) (n + 1)] at hge
        exact hge
      have : n + 1 ≤ i := Nat.le_of_mul_le_mul_right hle hpos
      omega
  · intro b hb
    rw [List.mem_map] at hb
    obtain ⟨i, _, hbi⟩ := hb
    subst hbi
    exact ⟨Nat.dvd_add hd (Dvd.intro_left i rfl), rfl⟩

/-- Witness for the amended C5 at pagesize 2^12 = 4096, N = 2, base
address 8192. -/
theorem alignedMemBlocks_aligned_base_witness :
    (1 ≤ 2 ∧ 8192 < 2 ^ 64 ∧ 2 ^ 12 ∣ 8192) ∧
    alignedMemBlocks (2 ^ 12) 2 8192 = some [(8192, 4096), (12288, 4096)] := by
  have h := alignedMemBlocks_aligned_base 12 2 8192 (by norm_num) (by norm_num) (by norm_num)
  refine ⟨⟨by norm_num, by norm_num, by norm_num⟩, ?_⟩
  rw [h.1]
  rfl

/-! ### Framer close protocol (message.go close, lines 185-207)

The status word carries the reading bit (4), the writing bit (2) and
the closed bit (0x2000).  close() returns nil at once when done; it
spins (nonblock: fails unavailable) while the loaded status has BOTH
the reading and the writing bit set — the source compares
status & (read|write) with (read|write) — and otherwise CAS-sets the
closed bit and records done. -/

def messageStatusRead : Nat := 4

def messageStatusWrite : Nat := 2

def messageStatusClosed : Nat := 8192

structure MsgStatus where
  status : Nat
  done : Bool
  nonblock : Bool
  deriving DecidableEq

inductive CloseOut where
  | ok
  | unavailable
  | blocked
  deriving DecidableEq

def msgClose (st : MsgStatus) : CloseOut × MsgStatus :=
  if st.done then (.ok, st)
  else if st.status &&& (messageStatusRead ||| messageStatusWrite) =
      (messageStatusRead ||| messageStatusWrite) then
    (if st.nonblock then (.unavailable, st) else (.blocked, st))
  else (.ok, { st with status := st.status ||| messageStatusClosed, done := true })

theorem or_and_absorb (a m : Nat) : (a ||| m) &&& m = m := by
  apply Nat.eq_of_testBit_eq
  intro i
  rw [Nat.testBit_and, Nat.testBit_or]
  cases a.testBit i <;> cases m.testBit i <;> simp

/-- Counterexample to claim C6 as stated: on a framer whose status holds
only the reading bit, a nonblocking close does NOT return
temporarily-unavailable — it succeeds and sets the closed bit while the
reading bit is still held, because the source only blocks when the
reading and writing bits are both set. -/
theorem msgClose_sets_closed_while_reading :
    msgClose ⟨messageStatusRead, false, true⟩ =
      (CloseOut.ok, ⟨messageStatusRead ||| messageStatusClosed, true, true⟩) ∧
    (messageStatusRead ||| messageStatusClosed) &&& messageStatusClosed =
      messageStatusClosed ∧
    (messageStatusRead ||| messageStatusClosed) &&& messageStatusRead =
      messageStatusRead ∧
    CloseOut.ok ≠ CloseOut.unavailable := by
  refine ⟨by rfl, by rfl, by rfl, by decide⟩

/-- Claim C6 as amended: close() sets the closed bit whenever the
reading bit and the writing bit are not BOTH held (even while one of
them is held); when both are held, a nonblocking close fails with the
temporarily-unavailable error without setting closed, and a blocking
close keeps waiting (spins, never setting closed in a single-threaded
run); a close on an already-done framer returns nil and changes
nothing. -/
theorem msgClose_spec (st : MsgStatus) :
    (st.done = true → msgClose st = (CloseOut.ok, st)) ∧
    (st.done = false →
      st.status &&& (messageStatusRead ||| messageStatusWrite) =
        (messageStatusRead ||| messageStatusWrite) →
      msgClose st =
        (if st.nonblock then (CloseOut.unavailable, st) else (CloseOut.blocked, st))) ∧
    (st.done = false →
      st.status &&& (messageStatusRead ||| messageStatusWrite) ≠
        (messageStatusRead ||| messageStatusWrite) →
      msgClose st =
        (CloseOut.ok, { st with status := st.status ||| messageStatusClosed, done := true }) ∧
      (msgClose st).2.status &&& messageStatusClosed = messageStatusClosed) := by
  refine ⟨?_, ?_, ?_⟩
  · intro hdone
    unfold msgClose
    rw [if_pos hdone]
  · intro hdone hboth
    unfold msgClose
    rw [if_neg (by rw [hdone]; exact Bool.false_ne_true), if_pos hboth]
  · intro hdone hboth
    have h : msgClose st =
        (CloseOut.ok, { st with status := st.status ||| messageStatusClosed, done := true }) := by
      unfold msgClose
      rw [if_neg (by rw [hdone]; exact Bool.false_ne_true), if_neg hboth]
    refine ⟨h, ?_⟩
    rw [h]
    exact or_and_absorb st.status messageStatusClosed

/-- Witness for the amended C6: with both the reading and the writing
bit held and nonblock set, close fails unavailable; after it, the
single-reader state from the counterexample closes successfully. -/
theorem msgClose_spec_witness :
    ((false : Bool) = false ∧
      (6 : Nat) &&& (messageStatusRead ||| messageStatusWrite) =
        (messageStatusRead ||| messageStatusWrite)) ∧
    msgClose ⟨6, false, true⟩ = (CloseOut.unavailable, ⟨6, false, true⟩) := by
  have h := (msgClose_spec ⟨6, false, true⟩).2.1 rfl (by rfl)
  refine ⟨⟨rfl, by rfl⟩, ?_⟩
  rw [h]
  rfl

/-! ### Parameterised spin waiter (spin_wait.go ParamSpinWait)

Levels: client=0, blockingIO=1, consume=2, produce=3, atomic=4; the
iteration counter is a uint32, the total-yields counter an int32
(nonnegative in every reachable state, modelled as Nat).  once()
increments i, then yields iff i & ((1 << (x - min(x, total>>1))) - 1)
is zero with x = level<<1; a yield bumps total and sleeps one jiffy
(one millisecond) at level ≤ blockingIO, otherwise calls the Go
scheduler; a non-yield emits a short procyield. -/

def spinWaitLevelBlockingIO : Nat := 1

structure ParamSpinWait where
  i : Nat
  level : Nat
  limit : Nat
  total : Nat
  deriving DecidableEq

def pswWillYield (sw : ParamSpinWait) (level : Nat) : Bool :=
  let x := 2 * level
  decide (sw.i &&& (2 ^ (x - min x (sw.total / 2)) - 1) = 0)

inductive SpinAction where
  | procyield
  | gosched
  | sleepJiffy
  deriving DecidableEq

def pswOnce (sw : ParamSpinWait) (level : Nat) : SpinAction × ParamSpinWait :=
  let sw1 := { sw with i := (sw.i + 1) % 2 ^ 32 }
  if pswWillYield sw1 level then
    (if level ≤ spinWaitLevelBlockingIO
      then (.sleepJiffy, { sw1 with total := sw1.total + 1 })
      else (.gosched, { sw1 with total := sw1.total + 1 }))
  else (.procyield, sw1)

def pswClosed (sw : ParamSpinWait) : Bool :=
  decide (0 < sw.limit) && decide (sw.limit ≤ sw.i)

/-- Claim C8: with x = level<<1, a call to Once() whose incremented
iteration counter is i yields to the scheduler iff
i & ((1 << (x - min(x, total>>1))) - 1) == 0, otherwise it performs a
short procyield; each yield increments the total counter, and at
level ≤ blockingIO the yield sleeps one jiffy (one millisecond) instead
of calling the scheduler; Closed() returns true exactly when limit > 0
and i ≥ limit. -/
theorem paramSpinWait_policy (sw : ParamSpinWait) (level : Nat) (hlevel : level ≤ 4) :
    ((pswOnce sw level).1 ≠ SpinAction.procyield ↔
      (sw.i + 1) % 2 ^ 32 &&&
        (2 ^ (2 * level - min (2 * level) (sw.total / 2)) - 1) = 0) ∧
    ((pswOnce sw level).2.i = (sw.i + 1) % 2 ^ 32) ∧
    ((pswOnce sw level).2.total =
      (if (sw.i + 1) % 2 ^ 32 &&&
          (2 ^ (2 * level - min (2 * level) (sw.total / 2)) - 1) = 0
        then sw.total + 1 else sw.total)) ∧
    ((sw.i + 1) % 2 ^ 32 &&&
        (2 ^ (2 * level - min (2 * level) (sw.total / 2)) - 1) = 0 →
      (pswOnce sw level).1 =
        (if level ≤ spinWaitLevelBlockingIO
          then SpinAction.sleepJiffy else SpinAction.gosched)) ∧
    (pswClosed sw = true ↔ 0 < sw.limit ∧ sw.limit ≤ sw.i) := by
  have hwy : pswWillYield { sw with i := (sw.i + 1) % 2 ^ 32 } level =
      decide ((sw.i + 1) % 2 ^ 32 &&&
        (2 ^ (2 * level - min (2 * level) (sw.total / 2)) - 1) = 0) := by
    rfl
  by_cases hy : (sw.i + 1) % 2 ^ 32 &&&
      (2 ^ (2 * level - min (2 * level) (sw.total / 2)) - 1) = 0
  · have ht : pswWillYield { sw with i := (sw.i + 1) % 2 ^ 32 } level = true := by
      rw [hwy, decide_eq_true_eq]
      exact hy
    by_cases hl : level ≤ spinWaitLevelBlockingIO
    · have hstep : pswOnce sw level =
          (SpinAction.sleepJiffy,
            { sw with i := (sw.i + 1) % 2 ^ 32, total := sw.total + 1 }) := by
        rw [pswOnce]
        simp only [ht, if_true, if_pos hl]
      rw [hstep]
      refine ⟨⟨fun _ => hy, fun _ h => SpinAction.noConfusion h⟩, rfl, ?_, ?_, ?_⟩
      · rw [if_pos hy]
      · intro _
        rw [if_pos hl]
      · rw [pswClosed]
        simp
    · have hstep : pswOnce sw level =
          (SpinAction.gosched,
            { sw with i := (sw.i + 1) % 2 ^ 32, total := sw.total + 1 }) := by
        rw [pswOnce]
        simp only [ht, if_true, if_neg hl]
      rw [hstep]
      refine ⟨⟨fun _ => hy, fun _ h => SpinAction.noConfusion h⟩, rfl, ?_, ?_, ?_⟩
      · rw [if_pos hy]
      · intro _
        rw [if_neg hl]
      · rw [pswClosed]
        simp
  · have ht : pswWillYield { sw with i := (sw.i + 1) % 2 ^ 32 } level = false := by
      rw [hwy, decide_eq_false_iff_not]
      exact hy
    have hstep : pswOnce sw level =
        (SpinAction.procyield, { sw with i := (sw.i + 1) % 2 ^ 32 }) := by
      rw [pswOnce]
      simp only [ht, if_false, Bool.false_eq_true]
    rw [hstep]
    refine ⟨⟨fun hne => absurd rfl hne, fun h => absurd h hy⟩, rfl, ?_, fun h => absurd h hy, ?_⟩
    · rw [if_neg hy]
    · rw [pswClosed]
      simp

/-- Witness for C8 at a fresh waiter (i = 0, total = 0, limit = 0) at
the produce level 3: the first Once yields to the scheduler (the
incremented counter 1 has 1 & 63 ≠ 0 — in fact it procyields), and
Closed is false. -/
theorem paramSpinWait_policy_witness :
    ((3 : Nat) ≤ 4) ∧
    ((pswOnce ⟨0, 3, 0, 0⟩ 3).2.i = (0 + 1) % 2 ^ 32) ∧
    (pswClosed ⟨0, 3, 0, 0⟩ = true ↔ 0 < 0 ∧ 0 ≤ 0) := by
  have h := paramSpinWait_policy ⟨0, 3, 0, 0⟩ 3 (by norm_num)
  exact ⟨by norm_num, h.2.1, h.2.2.2.2⟩

/-! ### io_uring completion wait (uring_linux.go ioUring.wait, lines 277-294)

One iteration of the wait loop: load CQ head and tail; if equal the
loop breaks and wait returns temporarily-unavailable; otherwise take
the CQE at index head (the head is kept masked by every advance, so
head = head & mask on reachable states), CAS head to (head+1) & mask,
retrying the whole step when the CAS fails, and return the CQE
unchanged. -/

structure Cqe where
  userData : Nat
  res : Int
  flags : Nat
  deriving DecidableEq

structure CqState where
  khead : Nat
  ktail : Nat
  kmask : Nat
  cqes : List Cqe
  deriving DecidableEq

inductive WaitOut where
  | unavailable
  | retry
  | cqe (e : Cqe) (newHead : Nat)
  | indexPanic
  deriving DecidableEq

def ioUringWaitStep (cq : CqState) (casOk : Bool) : WaitOut :=
  if cq.khead = cq.ktail then .unavailable
  else
    match cq.cqes[cq.khead]? with
    | none => .indexPanic
    | some e => if casOk then .cqe e ((cq.khead + 1) &&& cq.kmask) else .retry

/-- Claim C9: on a completion queue whose mask is 2^n − 1, whose head is
within the mask and whose CQE array has mask+1 entries, wait returns
temporarily-unavailable when head = tail, and otherwise reads the CQE
at head & mask, advances head by CAS to (head+1) & mask (a failed CAS
retries the whole step) and returns that CQE value unchanged. -/
theorem ioUring_wait_step_spec (cq : CqState) (n : Nat)
    (hmask : cq.kmask = 2 ^ n - 1) (hh : cq.khead ≤ cq.kmask)
    (hlen : cq.cqes.length = cq.kmask + 1) :
    (cq.khead = cq.ktail → ∀ cas, ioUringWaitStep cq cas = WaitOut.unavailable) ∧
    (cq.khead ≠ cq.ktail →
      ioUringWaitStep cq true =
        WaitOut.cqe (cq.cqes.getD (cq.khead &&& cq.kmask) ⟨0, 0, 0⟩)
          ((cq.khead + 1) &&& cq.kmask) ∧
      ioUringWaitStep cq false = WaitOut.retry) := by
  constructor
  · intro he cas
    rw [ioUringWaitStep, if_pos he]
  · intro hne
    have hpow : 0 < 2 ^ n := Nat.pos_pow_of_pos _ (by omega)
    have hidx : cq.khead < cq.cqes.length := by omega
    have hget : cq.cqes[cq.khead]? = some (cq.cqes.getD cq.khead ⟨0, 0, 0⟩) := by
      rw [List.getElem?_eq_getElem hidx, List.getD_eq_getElem _ _ hidx]
    have hmm : cq.khead &&& cq.kmask = cq.khead := by
      rw [hmask, Nat.and_pow_two_sub_one_eq_mod]
      exact Nat.mod_eq_of_lt (by omega)
    constructor
    · rw [ioUringWaitStep, if_neg hne, hget, hmm]
      rfl
    · rw [ioUringWaitStep, if_neg hne, hget]
      rfl

/-- Witness for C9 on a 2-entry completion ring with head 0 and tail 1:
wait returns the CQE with user data 5 and advances head to 1; with a
failing CAS the step retries; when head = tail it is unavailable. -/
theorem ioUring_wait_step_spec_witness :
    ((1 : Nat) = 2 ^ 1 - 1 ∧ (0 : Nat) ≤ 1 ∧ (2 : Nat) = 1 + 1) ∧
    ioUringWaitStep ⟨0, 1, 1, [⟨5, 0, 0⟩, ⟨6, 0, 0⟩]⟩ true = WaitOut.cqe ⟨5, 0, 0⟩ 1 ∧
    ioUringWaitStep ⟨0, 1, 1, [⟨5, 0, 0⟩, ⟨6, 0, 0⟩]⟩ false = WaitOut.retry ∧
    ioUringWaitStep ⟨1, 1, 1, [⟨5, 0, 0⟩, ⟨6, 0, 0⟩]⟩ true = WaitOut.unavailable := by
  have h := ioUring_wait_step_spec ⟨0, 1, 1, [⟨5, 0, 0⟩, ⟨6, 0, 0⟩]⟩ 1 (by rfl) (by norm_num)
    (by rfl)
  have h2 := ioUring_wait_step_spec ⟨1, 1, 1, [⟨5, 0, 0⟩, ⟨6, 0, 0⟩]⟩ 1 (by rfl) (by norm_num)
    (by rfl)
  obtain ⟨hc, hr⟩ := h.2 (by norm_num)
  refine ⟨⟨by norm_num, by norm_num, by norm_num⟩, ?_, hr, h2.1 rfl true⟩
  rw [hc]
  rfl

end Sox
